import Mathlib

/-!
Shallow embedding of the waveform-accumulation core of `mriseqplot`
(`src/mriseqplot/core.py`, `src/mriseqplot/shapes.py`, `src/mriseqplot/plot.py`).

Modelling conventions:
* A numpy floating-point value is `RVal`: either the non-numeric value `nan`
  (numpy's NaN, which the spec calls the "absent" sentinel) or a real number,
  represented exactly as a rational.  numpy addition and multiplication
  propagate NaN, which `RVal.add` / `RVal.mul` mirror.
* A numpy 2-D array is a `Mat` — a list of rows.  The example scripts build the
  time grid as `np.linspace(...)[:, None]`, i.e. shape (N, 1), so every buffer
  in the library is 2-D; `Mat.Rect m n k` says `m` has `n` rows of width `k`.
* numpy broadcasting between two 2-D arrays (used by `ampl * callback(t)`,
  by `buffer + unit` and by `np.logical_and(buffer, unit)`) is `bcast2`:
  a dimension of extent 1 is stretched to match the other operand.
* `Sequence.__init__` / `Sequence.add_element` become `Sequence.init` /
  `Sequence.addElement`; a Python `KeyError` becomes `Except.error`.
-/

/-- A numpy scalar: NaN or a real value (modelled as a rational). -/
inductive RVal where
  | nan : RVal
  | val (x : ℚ) : RVal
deriving DecidableEq, Repr

/-- numpy `+` on scalars: NaN propagates through addition. -/
def RVal.add : RVal → RVal → RVal
  | .val x, .val y => .val (x + y)
  | _, _ => .nan

/-- numpy `*` on scalars: NaN propagates through multiplication. -/
def RVal.mul : RVal → RVal → RVal
  | .val x, .val y => .val (x * y)
  | _, _ => .nan

/-- numpy truthiness of a float (used by `np.logical_and`): nonzero reals and
NaN are truthy, `0.0` is falsy. -/
def RVal.truthy : RVal → Bool
  | .val x => decide (x ≠ 0)
  | .nan => true

/-- `np.isnan` on a scalar. -/
def RVal.isNan : RVal → Bool
  | .nan => true
  | .val _ => false

/-- A numpy 2-D array: a list of rows of scalars. -/
abbrev Mat := List (List RVal)

/-- `m` is a rectangular array with `n` rows, each of width `k`. -/
def Mat.Rect (m : Mat) (n k : Nat) : Prop :=
  m.length = n ∧ ∀ r ∈ m, r.length = k

/-- numpy index broadcast: a dimension of extent 1 is always read at index 0. -/
def bIdx (len i : Nat) : Nat := if len = 1 then 0 else i

/-- Entry `(i, k)` of a 2-D array under numpy broadcasting of both dimensions. -/
def bEnt (m : Mat) (i k : Nat) : RVal :=
  let r := m.getD (bIdx m.length i) []
  r.getD (bIdx r.length k) .nan

/-- Broadcast two rows of widths `p`, `q` (with `p = q`, `p = 1` or `q = 1`)
against each other and combine elementwise with `f`. -/
def rowB {α : Type} (f : RVal → RVal → α) (r1 r2 : List RVal) : List α :=
  if r1.length = r2.length then List.zipWith f r1 r2
  else if r1.length = 1 then r2.map (f (r1.headD .nan))
  else if r2.length = 1 then r1.map (fun a => f a (r2.headD .nan))
  else []

/-- numpy broadcasting of a binary ufunc `f` over two 2-D arrays: dimensions of
extent 1 are stretched to the other operand's extent.  (numpy raises on
incompatible shapes; theorems carry shape hypotheses so the `[]` fallback is
never reached.) -/
def bcast2 {α : Type} (f : RVal → RVal → α) (A B : Mat) : List (List α) :=
  if A.length = B.length then List.zipWith (rowB f) A B
  else if A.length = 1 then B.map (rowB f (A.headD []))
  else if B.length = 1 then A.map (fun r => rowB f r (B.headD []))
  else []

/-- Column extents `p` and `q` are numpy-broadcast-compatible. -/
def bCompat (p q : Nat) : Prop := p = q ∨ p = 1 ∨ q = 1

/-- The broadcast extent of two compatible extents. -/
def bcMax (p q : Nat) : Nat := if p = q then p else if p = 1 then q else p

/-- The channel store of `Sequence` (`src/mriseqplot/core.py`): the shared time
grid (a column of reals, shape (N, 1)) and one buffer per channel name. -/
structure Sequence where
  t : List ℚ
  channels : List (String × Mat)
deriving DecidableEq

/-- `np.zeros_like(t)` for the (N, 1) time grid. -/
def zerosLike (t : List ℚ) : Mat := t.map (fun _ => [RVal.val 0])

/-- `Sequence.__init__`: every channel buffer starts as `np.zeros_like(t)`. -/
def Sequence.init (t : List ℚ) (channels : List String) : Sequence :=
  ⟨t, channels.map (fun name => (name, zerosLike t))⟩

/-- Replace the buffer stored under `name` (Python dict assignment to an
existing key). -/
def updateChan (name : String) (m : Mat) : List (String × Mat) → List (String × Mat)
  | [] => []
  | p :: rest =>
      if p.1 = name then (p.1, m) :: updateChan name m rest
      else p :: updateChan name m rest

/-- `np.logical_and(buffer, unit).any()`: true iff some position of the
broadcast shape has both operands truthy. -/
def overlapAny (buf unit : Mat) : Bool :=
  (bcast2 (fun a b => a.truthy && b.truthy) buf unit).any (fun r => r.any id)

/-- `Sequence.add_element`: compute `unit = ampl * callback(t)`, look the
channel up (a `KeyError` on an unknown name becomes `Except.error`), test for
overlap with the current buffer, and accumulate with ordinary numpy `+`.
Returns the new store and whether the overlap warning fired. -/
def Sequence.addElement (s : Sequence) (name : String) (callback : List ℚ → Mat)
    (ampl : Mat) : Except Unit (Sequence × Bool) :=
  let unit := bcast2 RVal.mul ampl (callback s.t)
  match s.channels.lookup name with
  | none => .error ()
  | some buf =>
      .ok (⟨s.t, updateChan name (bcast2 RVal.add buf unit) s.channels⟩,
           overlapAny buf unit)

/-- Modelled from the spec: the absent-aware combinator the spec prescribes for
`addElement` ("absent + absent = absent, absent + x = x, x + y = x+y"), stated
here only to be compared against the source's `RVal.add`. -/
def absentSum : RVal → RVal → RVal
  | .nan, .nan => .nan
  | .nan, x => x
  | x, .nan => x
  | .val x, .val y => .val (x + y)

instance (m : Mat) (n k : Nat) : Decidable (m.Rect n k) :=
  decidable_of_iff (m.length = n ∧ ∀ r ∈ m, r.length = k) Iff.rfl

instance exceptDecEq {ε α : Type} [DecidableEq ε] [DecidableEq α] :
    DecidableEq (Except ε α)
  | .error e1, .error e2 => decidable_of_iff (e1 = e2) (by simp)
  | .error _, .ok _ => isFalse (by simp)
  | .ok _, .error _ => isFalse (by simp)
  | .ok a1, .ok a2 => decidable_of_iff (a1 = a2) (by simp)

/-- `add_element` keeping only the updated store (the overlap warning is
discarded); if the lookup fails the store is returned unchanged. -/
def Sequence.addElemState (s : Sequence) (name : String) (cb : List ℚ → Mat)
    (ampl : Mat) : Sequence :=
  match s.addElement name cb ampl with
  | .ok (s2, _) => s2
  | .error _ => s

/-- `trapezoid` (`src/mriseqplot/shapes.py`), translated pointwise: the source
builds `x = np.zeros_like(t)` and then assigns the ramp-up, flat and ramp-down
index masks in that order, so a later mask wins where masks overlap — hence
the reversed `if` priority here. -/
def trapezoid (t t_start t_flat_out t_ramp_down : ℚ) : ℚ :=
  if t_ramp_down < t ∧ t ≤ t_ramp_down + (t_flat_out - t_start) then
    (t_ramp_down - t) / (t_flat_out - t_start) + 1
  else if t_flat_out < t ∧ t ≤ t_ramp_down then 1
  else if t_start < t ∧ t ≤ t_flat_out then (t - t_start) / (t_flat_out - t_start)
  else 0

/-- `trapezoid` applied to every sample of the time grid. -/
def trapezoidArr (ts : List ℚ) (t_start t_flat_out t_ramp_down : ℚ) : List ℚ :=
  ts.map (fun t => trapezoid t t_start t_flat_out t_ramp_down)

/-- Column count of `np.broadcast_arrays(*channels)`: the maximum row width
over the channel buffers. -/
def bcastK (chs : List Mat) : Nat :=
  chs.foldl (fun acc m => max acc ((m.headD []).length)) 0

/-- One row expanded to `K` columns as `np.broadcast_arrays` does: a width-1
row is replicated, any other row is kept as is. -/
def bRowTo (K : Nat) (r : List RVal) : List RVal :=
  if r.length = 1 then List.replicate K (r.headD .nan) else r

/-- Row `i` of `np.concatenate(np.broadcast_arrays(*channels), axis=1)`. -/
def stackRow (chs : List Mat) (i : Nat) : List RVal :=
  (chs.map (fun m => bRowTo (bcastK chs) (m.getD i []))).flatten

/-- `np.isnan(tmp_stack).all(axis=1)` in `_time_axis_as_disconected_path`:
one Bool per grid sample, true iff every channel is NaN there across all its
overlay variants. -/
def allNanMask (chs : List Mat) : List Bool :=
  (List.range (chs.headD []).length).map (fun i => (stackRow chs i).all RVal.isNan)

/-- The code list of the `Path` built by `_time_axis_as_disconected_path`
(`src/mriseqplot/plot.py`): a leading `MOVETO` for the extra `(0, 0)` vertex,
then, per grid sample, `LINETO` (`true`: baseline segment drawn, visible)
where the mask holds and `MOVETO` (`false`: pen lifted, invisible) elsewhere. -/
def timeAxisCodes (chs : List Mat) : List Bool :=
  false :: allNanMask chs

/-- The vertex list of the same `Path`: `(0, 0)` followed by
`np.linspace(0, 1, N)` paired with `y = 0` (the baseline is pinned to 0). -/
def timeAxisVerts (chs : List Mat) : List (ℚ × ℚ) :=
  (0, 0) :: (List.range (chs.headD []).length).map
    (fun i => ((i : ℚ) / (((chs.headD []).length : ℚ) - 1), 0))

/-- Modelled from the spec: the one-sample-each-direction dilation of the
all-absent mask which the spec prescribes for the Axis Projector, stated only
for comparison with the source's `timeAxisCodes` (which applies no dilation). -/
def specDilate (mask : List Bool) : List Bool :=
  (List.range mask.length).map
    (fun i => mask.getD i false ||
      (if i = 0 then false else mask.getD (i - 1) false) ||
      mask.getD (i + 1) false)

/-- Python `min(a, b)` folded over a list, seeded like `np.min` of a nonempty
array with the first element (`0` stands in for the empty case, which the
theorems exclude). -/
def listMin (l : List ℚ) : ℚ := l.foldl min (l.headD 0)

def listMax (l : List ℚ) : ℚ := l.foldl max (l.headD 0)

/-- `np.min` over a whole 2-D array (nonempty, real-valued). -/
def matMin (m : List (List ℚ)) : ℚ := listMin m.flatten

def matMax (m : List (List ℚ)) : ℚ := listMax m.flatten

/-- The `ylim` computed by `Sequence._format_axes_data`
(`src/mriseqplot/core.py`): starting from `[0.0, 0.0]`, fold in
`padding_factor * np.min/np.max` of every channel signal, then fold in the
annotation amplitudes (without the padding factor).  Buffers are taken
real-valued here, as `np.min`/`np.max` on NaN-bearing data is not what the
claim concerns. -/
def computeYlim (signals : List (List (List ℚ))) (annos : List (List ℚ))
    (padding_factor : ℚ) : ℚ × ℚ :=
  let y1 := signals.foldl
    (fun y sig => (min y.1 (padding_factor * matMin sig),
                   max y.2 (padding_factor * matMax sig))) (0, 0)
  annos.foldl (fun y a => (min y.1 (listMin a), max y.2 (listMax a))) y1

/-- `_format_axes_data` sets the one computed `ylim` on every row with
`ax.set_ylim`, so each of the `nRows` subplot rows receives the same pair. -/
def formatAxesYlims (nRows : Nat) (signals : List (List (List ℚ)))
    (annos : List (List ℚ)) (padding_factor : ℚ) : List (ℚ × ℚ) :=
  List.replicate nRows (computeYlim signals annos padding_factor)

section BasicLemmas

/-- `getD` agrees with `getElem` inside the bounds. -/
theorem getD_eq_getElem {α : Type} (l : List α) (d : α) (i : Nat) (h : i < l.length) :
    l.getD i d = l[i] := by
  simp [List.getD_eq_getElem?_getD, List.getElem?_eq_getElem, h]

theorem getD_map {α β : Type} (f : α → β) (l : List α) (i : Nat) (d : β) (d2 : α)
    (h : i < l.length) : (l.map f).getD i d = f (l.getD i d2) := by
  rw [getD_eq_getElem _ _ _ (by simpa using h), getD_eq_getElem _ _ _ h]
  simp

theorem getD_zipWith {α β γ : Type} (f : α → β → γ) (l1 : List α) (l2 : List β)
    (i : Nat) (d : γ) (d1 : α) (d2 : β) (h1 : i < l1.length) (h2 : i < l2.length) :
    (List.zipWith f l1 l2).getD i d = f (l1.getD i d1) (l2.getD i d2) := by
  rw [getD_eq_getElem _ _ _ (by simp [List.length_zipWith]; omega),
      getD_eq_getElem _ _ _ h1, getD_eq_getElem _ _ _ h2]
  simp [List.getElem_zipWith]

theorem getD_mem {α : Type} (l : List α) (d : α) (i : Nat) (h : i < l.length) :
    l.getD i d ∈ l := by
  rw [getD_eq_getElem _ _ _ h]; exact List.getElem_mem h

end BasicLemmas

section BroadcastLemmas

theorem headD_eq_getD_zero {α : Type} (l : List α) (d : α) : l.headD d = l.getD 0 d := by
  cases l <;> rfl

theorem bIdx_eq_self {p k : Nat} (hk : k < p) : bIdx p k = k := by
  unfold bIdx
  split
  · omega
  · rfl

theorem bIdx_one (k : Nat) : bIdx 1 k = 0 := by simp [bIdx]

theorem rowB_length {α : Type} (f : RVal → RVal → α) (r1 r2 : List RVal) (p q : Nat)
    (h1 : r1.length = p) (h2 : r2.length = q) (hc : bCompat p q) :
    (rowB f r1 r2).length = bcMax p q := by
  subst h1; subst h2
  unfold rowB bcMax
  split_ifs with hb1 hb2 hb3
  · simp [List.length_zipWith]; omega
  · simp
  · simp
  · rcases hc with h | h | h <;> omega

theorem rowB_getD {α : Type} (f : RVal → RVal → α) (r1 r2 : List RVal) (p q : Nat)
    (h1 : r1.length = p) (h2 : r2.length = q) (hc : bCompat p q)
    (k : Nat) (hk : k < bcMax p q) (d : α) :
    (rowB f r1 r2).getD k d =
      f (r1.getD (bIdx p k) .nan) (r2.getD (bIdx q k) .nan) := by
  subst h1; subst h2
  unfold bcMax at hk
  unfold rowB
  split_ifs at hk ⊢ with hb1 hb2 hb3
  · rw [getD_zipWith f r1 r2 k d .nan .nan (by omega) (by omega),
        bIdx_eq_self hk, bIdx_eq_self (by omega : k < r2.length)]
  · rw [getD_map (f (r1.headD .nan)) r2 k d .nan (by omega), headD_eq_getD_zero,
        hb2, bIdx_one, bIdx_eq_self (by omega : k < r2.length)]
  · rw [getD_map _ r1 k d .nan (by omega), headD_eq_getD_zero,
        hb3, bIdx_one, bIdx_eq_self (by omega : k < r1.length)]
  · rcases hc with h | h | h <;> omega

theorem bcast2_rect {α : Type} (f : RVal → RVal → α) (A B : Mat) (n p q : Nat)
    (hA : A.Rect n p) (hB : B.Rect n q) (hc : bCompat p q) :
    (bcast2 f A B).length = n ∧ ∀ r ∈ bcast2 f A B, r.length = bcMax p q := by
  obtain ⟨hAl, hAr⟩ := hA
  obtain ⟨hBl, hBr⟩ := hB
  rw [bcast2, if_pos (by omega : A.length = B.length)]
  constructor
  · simp [List.length_zipWith]; omega
  · intro r hr
    rw [List.mem_iff_getElem] at hr
    obtain ⟨i, hi, hri⟩ := hr
    rw [List.getElem_zipWith] at hri
    subst hri
    refine rowB_length f _ _ p q ?_ ?_ hc
    · exact hAr _ (List.getElem_mem _)
    · exact hBr _ (List.getElem_mem _)

theorem bEnt_rect (A : Mat) (n p : Nat) (hA : A.Rect n p) (i k : Nat) (hi : i < n) :
    bEnt A i k = (A.getD i []).getD (bIdx p k) .nan := by
  obtain ⟨hAl, hAr⟩ := hA
  have hrow : A.getD i [] ∈ A := getD_mem _ _ _ (by omega)
  rw [bEnt, hAl]
  rw [bIdx_eq_self (by omega : i < n), hAr _ hrow]

theorem bcast2_getD {α : Type} (f : RVal → RVal → α) (A B : Mat) (n p q : Nat)
    (hA : A.Rect n p) (hB : B.Rect n q) (hc : bCompat p q)
    (i k : Nat) (hi : i < n) (hk : k < bcMax p q) (d : α) (dr : List α) :
    ((bcast2 f A B).getD i dr).getD k d = f (bEnt A i k) (bEnt B i k) := by
  obtain ⟨hAl, hAr⟩ := hA
  obtain ⟨hBl, hBr⟩ := hB
  rw [bcast2, if_pos (by omega : A.length = B.length)]
  rw [getD_zipWith (rowB f) A B i dr [] [] (by omega) (by omega)]
  have hrA : A.getD i [] ∈ A := getD_mem _ _ _ (by omega)
  have hrB : B.getD i [] ∈ B := getD_mem _ _ _ (by omega)
  rw [rowB_getD f _ _ p q (hAr _ hrA) (hBr _ hrB) hc k hk d]
  rw [bEnt_rect A n p ⟨hAl, hAr⟩ i k hi, bEnt_rect B n q ⟨hBl, hBr⟩ i k hi]

theorem mat_ext (A B : Mat) (n k : Nat) (hA : A.Rect n k) (hB : B.Rect n k)
    (h : ∀ i < n, ∀ j < k,
      (A.getD i []).getD j .nan = (B.getD i []).getD j .nan) : A = B := by
  obtain ⟨hAl, hAr⟩ := hA
  obtain ⟨hBl, hBr⟩ := hB
  refine List.ext_getElem (by omega) ?_
  intro i hi1 hi2
  have hi : i < n := by omega
  refine List.ext_getElem ?_ ?_
  · rw [hAr _ (List.getElem_mem _), hBr _ (List.getElem_mem _)]
  · intro j hj1 hj2
    have hj : j < k := by
      rw [hAr _ (List.getElem_mem _)] at hj1; exact hj1
    have hstep := h i hi j hj
    have hAi : List.getD A i [] = A[i] := getD_eq_getElem _ _ _ (by omega)
    have hBi : List.getD B i [] = B[i] := getD_eq_getElem _ _ _ (by omega)
    rw [hAi, hBi, getD_eq_getElem _ _ _ hj1, getD_eq_getElem _ _ _ hj2] at hstep
    exact hstep

end BroadcastLemmas

section RValLemmas

theorem RVal.zero_add (x : RVal) : RVal.add (.val 0) x = x := by
  cases x <;> simp [RVal.add]

theorem RVal.add_comm (x y : RVal) : RVal.add x y = RVal.add y x := by
  cases x <;> cases y <;> simp [RVal.add] <;> ring

theorem RVal.add_right_swap (x y z : RVal) :
    RVal.add (RVal.add x y) z = RVal.add (RVal.add x z) y := by
  cases x <;> cases y <;> cases z <;> simp [RVal.add] <;> ring

theorem RVal.add_assoc (x y z : RVal) :
    RVal.add (RVal.add x y) z = RVal.add x (RVal.add y z) := by
  cases x <;> cases y <;> cases z <;> simp [RVal.add] <;> ring

theorem RVal.truthy_iff (v : RVal) : v.truthy = true ↔ v ≠ .val 0 := by
  cases v with
  | nan => simp [RVal.truthy]
  | val x => simp [RVal.truthy]

end RValLemmas

section SequenceLemmas

theorem lookup_init (t : List ℚ) (names : List String) (name : String) :
    (Sequence.init t names).channels.lookup name =
      if name ∈ names then some (zerosLike t) else none := by
  induction names with
  | nil => simp [Sequence.init]
  | cons n rest ih =>
      simp only [Sequence.init, List.map] at ih ⊢
      by_cases h : name = n
      · subst h
        simp [List.lookup]
      · have hb : (name == n) = false := beq_eq_false_iff_ne.mpr h
        simp only [List.lookup, hb]
        rw [ih]
        simp [List.mem_cons, h]

theorem lookup_updateChan_self (name : String) (m : Mat) (ch : List (String × Mat))
    (h : (ch.lookup name).isSome) :
    (updateChan name m ch).lookup name = some m := by
  induction ch with
  | nil => simp [List.lookup] at h
  | cons p rest ih =>
      rw [updateChan]
      by_cases hp : p.1 = name
      · rw [if_pos hp]
        have hb : (name == p.1) = true := by simp [hp]
        simp [List.lookup, hb]
      · rw [if_neg hp]
        have hb : (name == p.1) = false :=
          beq_eq_false_iff_ne.mpr (fun e => hp e.symm)
        simp only [List.lookup, hb] at h ⊢
        exact ih h

theorem zerosLike_rect (t : List ℚ) : (zerosLike t).Rect t.length 1 := by
  constructor
  · simp [zerosLike]
  · intro r hr
    simp only [zerosLike, List.mem_map] at hr
    obtain ⟨x, _, rfl⟩ := hr
    rfl

theorem zerosLike_getD (t : List ℚ) (i : Nat) (hi : i < t.length) :
    (zerosLike t).getD i [] = [RVal.val 0] := by
  rw [zerosLike, getD_map _ _ _ _ 0 hi]

theorem bcMax_one_left (q : Nat) : bcMax 1 q = q := by
  unfold bcMax; split_ifs <;> omega

theorem rowB_singleton {α : Type} (f : RVal → RVal → α) (a : List RVal) (x : RVal) :
    rowB f a [x] = a.map (fun y => f y x) := by
  unfold rowB
  split_ifs with h1 h2 h3
  · match a, h1 with
    | [y], _ => rfl
  · match a, h2 with
    | [y], _ => rfl
  · rfl
  · simp at h3

theorem bcast2_rowvec_colvec {α : Type} (f : RVal → RVal → α) (a : List RVal)
    (w : List RVal) :
    bcast2 f [a] (w.map (fun x => [x])) = w.map (fun x => a.map (fun y => f y x)) := by
  unfold bcast2
  split_ifs with h1 h2 h3
  · rcases w with _ | ⟨x, xs⟩
    · simp at h1
    · rcases xs with _ | ⟨x2, xs⟩
      · simp [rowB_singleton]
      · simp at h1
  · rw [List.map_map]
    refine List.map_congr_left ?_
    intro x _
    simp only [Function.comp_apply, List.headD_cons]
    exact rowB_singleton f a x
  · simp only [List.length_map, List.length_cons, List.length_nil] at h1 h3
    omega
  · simp at h2

end SequenceLemmas

section OverlapLemmas

theorem matAny_iff (M : List (List Bool)) (n k : Nat)
    (hl : M.length = n) (hr : ∀ r ∈ M, r.length = k) :
    (M.any (fun r => r.any id)) = true ↔
      ∃ i < n, ∃ j < k, (M.getD i []).getD j false = true := by
  rw [List.any_eq_true]
  constructor
  · rintro ⟨r, hrmem, hrany⟩
    rw [List.any_eq_true] at hrany
    obtain ⟨b, hbmem, hbid⟩ := hrany
    rw [List.mem_iff_getElem] at hrmem
    obtain ⟨i, hi, rfl⟩ := hrmem
    rw [List.mem_iff_getElem] at hbmem
    obtain ⟨j, hj, rfl⟩ := hbmem
    refine ⟨i, by omega, j, ?_, ?_⟩
    · have := hr _ (List.getElem_mem hi)
      omega
    · rw [getD_eq_getElem _ _ _ hi]
      rw [getD_eq_getElem _ _ _ hj]
      simpa using hbid
  · rintro ⟨i, hi, j, hj, hval⟩
    have hi' : i < M.length := by omega
    have hj' : j < (M[i]).length := by
      rw [hr _ (List.getElem_mem hi')]; exact hj
    refine ⟨M[i], List.getElem_mem hi', ?_⟩
    rw [List.any_eq_true]
    refine ⟨(M[i])[j], List.getElem_mem hj', ?_⟩
    rw [getD_eq_getElem _ _ _ hi', getD_eq_getElem _ _ _ hj'] at hval
    simpa using hval

theorem overlapAny_iff (buf unit : Mat) (n p q : Nat)
    (hb : buf.Rect n p) (hu : unit.Rect n q) (hc : bCompat p q) :
    overlapAny buf unit = true ↔
      ∃ i < n, ∃ k < bcMax p q,
        bEnt buf i k ≠ .val 0 ∧ bEnt unit i k ≠ .val 0 := by
  obtain ⟨hl, hr⟩ := bcast2_rect (fun a b => a.truthy && b.truthy) buf unit n p q hb hu hc
  rw [overlapAny, matAny_iff _ n (bcMax p q) hl hr]
  constructor
  · rintro ⟨i, hi, k, hk, hval⟩
    rw [bcast2_getD _ _ _ n p q hb hu hc i k hi hk false []] at hval
    rw [Bool.and_eq_true, RVal.truthy_iff, RVal.truthy_iff] at hval
    exact ⟨i, hi, k, hk, hval⟩
  · rintro ⟨i, hi, k, hk, h1, h2⟩
    refine ⟨i, hi, k, hk, ?_⟩
    rw [bcast2_getD _ _ _ n p q hb hu hc i k hi hk false []]
    rw [Bool.and_eq_true, RVal.truthy_iff, RVal.truthy_iff]
    exact ⟨h1, h2⟩

end OverlapLemmas

/-- C2 counterexample: immediately after `Sequence.__init__` the single sample
of channel "RF" is the real value `0`, which differs from the distinguished
absent value (NaN).  The claim that every sample starts "absent" is false:
`__init__` uses `np.zeros_like(t)`. -/
theorem C2_counterexample :
    (Sequence.init [0] ["RF"]).channels.lookup "RF" = some [[RVal.val 0]] ∧
    RVal.val 0 ≠ RVal.nan := by
  exact ⟨by decide, by decide⟩

/-- C2 (amended): for every grid and channel name given at initialization —
hence for any channel on which zero elements have been accumulated — every
sample of the channel's buffer is the real value zero (`np.zeros_like`), not a
distinguished absent value. -/
theorem C2_init_every_sample_zero (t : List ℚ) (names : List String) (name : String)
    (h : name ∈ names) :
    (Sequence.init t names).channels.lookup name = some (zerosLike t) ∧
    ∀ r ∈ zerosLike t, r = [RVal.val 0] := by
  refine ⟨?_, ?_⟩
  · rw [lookup_init, if_pos h]
  · intro r hr
    simp only [zerosLike, List.mem_map] at hr
    obtain ⟨x, _, rfl⟩ := hr
    rfl

theorem C2_witness :
    ("RF" ∈ ["RF", "PEG"]) ∧
    ((Sequence.init [(0 : ℚ), 1] ["RF", "PEG"]).channels.lookup "RF" =
        some (zerosLike [(0 : ℚ), 1]) ∧
      ∀ r ∈ zerosLike [(0 : ℚ), 1], r = [RVal.val 0]) :=
  ⟨by decide, C2_init_every_sample_zero [(0 : ℚ), 1] ["RF", "PEG"] "RF" (by decide)⟩

/-- C9 (confirmed): calling `add_element` with a channel name not given at
initialization surfaces the lookup failure (Python `KeyError`, modelled as
`Except.error`) to the caller; the buffer assignment is never reached, so no
channel buffer is modified by the failed call. -/
theorem C9_unknown_channel_raises (t : List ℚ) (names : List String) (name : String)
    (cb : List ℚ → Mat) (ampl : Mat) (h : name ∉ names) :
    (Sequence.init t names).addElement name cb ampl = .error () := by
  unfold Sequence.addElement
  rw [lookup_init, if_neg h]

theorem C9_witness :
    ("ADC" ∉ ["RF", "PEG"]) ∧
    (Sequence.init [(0 : ℚ)] ["RF", "PEG"]).addElement "ADC"
        (fun ts => ts.map (fun _ => [RVal.val 1])) [[RVal.val 1]] = .error () :=
  ⟨by decide, C9_unknown_channel_raises _ _ _ _ _ (by decide)⟩

/-- C1 counterexample: on a channel whose buffer holds NaN ("absent") at its
only position, adding a unit waveform of value 5 stores NaN + 5 = NaN, whereas
the claimed annihilating-identity combination (`absentSum`) would store 5.
The buffer is combined with ordinary NaN-propagating addition, so the claim is
false. -/
theorem C1_counterexample :
    (Sequence.mk [0] [("A", [[RVal.nan]])]).addElement "A"
        (fun ts => ts.map (fun _ => [RVal.val 5])) [[RVal.val 1]] =
      .ok (⟨[0], [("A", [[RVal.nan]])]⟩, true) ∧
    absentSum RVal.nan (RVal.val 5) = RVal.val 5 ∧
    RVal.nan ≠ RVal.val 5 := by
  refine ⟨?_, by decide, by decide⟩
  norm_num [Sequence.addElement, overlapAny, bcast2, rowB, updateChan,
    RVal.add, RVal.mul, RVal.truthy, List.lookup]

/-- C1 (amended): for every existing channel, `add_element` replaces the
buffer by the ordinary elementwise numpy sum of the old buffer and
`unit = ampl * callback(t)`, broadcast to a common shape; NaN ("absent") is
not an annihilating identity — it propagates through the sum. -/
theorem C1_addElement_ordinary_sum (s : Sequence) (name : String)
    (cb : List ℚ → Mat) (ampl : Mat) (buf : Mat) (n p q : Nat)
    (hbuf : s.channels.lookup name = some buf)
    (hb : buf.Rect n p)
    (hu : Mat.Rect (bcast2 RVal.mul ampl (cb s.t)) n q)
    (hc : bCompat p q) :
    s.addElement name cb ampl =
      .ok (⟨s.t, updateChan name
            (bcast2 RVal.add buf (bcast2 RVal.mul ampl (cb s.t))) s.channels⟩,
           overlapAny buf (bcast2 RVal.mul ampl (cb s.t))) ∧
    Mat.Rect (bcast2 RVal.add buf (bcast2 RVal.mul ampl (cb s.t))) n (bcMax p q) ∧
    ∀ i < n, ∀ k < bcMax p q,
      ((bcast2 RVal.add buf (bcast2 RVal.mul ampl (cb s.t))).getD i []).getD k .nan =
        RVal.add (bEnt buf i k) (bEnt (bcast2 RVal.mul ampl (cb s.t)) i k) := by
  refine ⟨?_, ?_, ?_⟩
  · unfold Sequence.addElement
    rw [hbuf]
  · exact bcast2_rect RVal.add _ _ n p q hb hu hc
  · intro i hi k hk
    exact bcast2_getD RVal.add _ _ n p q hb hu hc i k hi hk _ _

theorem C1_witness :
    (Sequence.mk [0] [("A", [[RVal.val 2]])]).addElement "A"
        (fun ts => ts.map (fun _ => [RVal.val 3])) [[RVal.val 1]] =
      .ok (⟨[0], [("A", [[RVal.val 5]])]⟩, true) := by
  have h := C1_addElement_ordinary_sum (Sequence.mk [0] [("A", [[RVal.val 2]])])
      "A" (fun ts => ts.map (fun _ => [RVal.val 3])) [[RVal.val 1]]
      [[RVal.val 2]] 1 1 1 (by decide) (by decide) (by decide) (Or.inl rfl)
  rw [h.1]
  norm_num [overlapAny, bcast2, rowB, updateChan, RVal.add, RVal.mul, RVal.truthy]

/-- C10 (confirmed): on an existing channel `add_element` never raises; the
overlap warning fires iff some broadcast position has both the existing buffer
value and the new scaled waveform value nonzero (an exact zero on either side
never counts), and the accumulation is performed whether or not the warning
fired. -/
theorem C10_overlap_warning (s : Sequence) (name : String)
    (cb : List ℚ → Mat) (ampl : Mat) (buf : Mat) (n p q : Nat)
    (hbuf : s.channels.lookup name = some buf)
    (hb : buf.Rect n p)
    (hu : Mat.Rect (bcast2 RVal.mul ampl (cb s.t)) n q)
    (hc : bCompat p q) :
    s.addElement name cb ampl =
      .ok (⟨s.t, updateChan name
            (bcast2 RVal.add buf (bcast2 RVal.mul ampl (cb s.t))) s.channels⟩,
           overlapAny buf (bcast2 RVal.mul ampl (cb s.t))) ∧
    (overlapAny buf (bcast2 RVal.mul ampl (cb s.t)) = true ↔
      ∃ i < n, ∃ k < bcMax p q,
        bEnt buf i k ≠ .val 0 ∧
        bEnt (bcast2 RVal.mul ampl (cb s.t)) i k ≠ .val 0) := by
  refine ⟨?_, ?_⟩
  · unfold Sequence.addElement
    rw [hbuf]
  · exact overlapAny_iff buf _ n p q hb hu hc

theorem C10_witness :
    (Sequence.mk [0] [("A", [[RVal.val 4]])]).addElement "A"
        (fun ts => ts.map (fun _ => [RVal.val 7])) [[RVal.val 1]] =
      .ok (⟨[0], [("A", [[RVal.val 11]])]⟩, true) := by
  have h := C10_overlap_warning (Sequence.mk [0] [("A", [[RVal.val 4]])])
      "A" (fun ts => ts.map (fun _ => [RVal.val 7])) [[RVal.val 1]]
      [[RVal.val 4]] 1 1 1 (by decide) (by decide) (by decide) (Or.inl rfl)
  rw [h.1]
  norm_num [overlapAny, bcast2, rowB, updateChan, RVal.add, RVal.mul, RVal.truthy]

/-- C3 counterexample: on a single-variant channel whose buffer is all-"absent"
(all NaN, as the claim presupposes a fresh channel to be), adding a length-10
amplitude row of ones against a unit waveform of value 1 leaves every column
NaN — not the claimed `amplitude_k * waveform` (= 1): fresh channels are
zero-filled, not absent-filled, and NaN would poison the sum. -/
theorem C3_counterexample :
    (Sequence.mk [0] [("A", [[RVal.nan]])]).addElement "A"
        (fun ts => ts.map (fun _ => [RVal.val 1]))
        [List.replicate 10 (RVal.val 1)] =
      .ok (⟨[0], [("A", [List.replicate 10 RVal.nan])]⟩, true) ∧
    RVal.nan ≠ RVal.mul (RVal.val 1) (RVal.val 1) := by
  refine ⟨?_, by decide⟩
  norm_num [Sequence.addElement, overlapAny, bcast2, rowB, updateChan,
    RVal.add, RVal.mul, RVal.truthy, List.lookup, List.replicate]

/-- C3 (amended): for every fresh — i.e. all-zero, as `__init__` creates it —
single-variant channel over a grid of length `n` and every amplitude row-vector
of length 10, `add_element` produces a buffer of shape `(n, 10)` whose column
`k` is the `k`-th amplitude component times the unit waveform: ten independent
scaled copies of the unit shape. -/
theorem C3_amplitude_vector_broadcast (s : Sequence) (name : String)
    (cb : List ℚ → Mat) (a : List RVal) (w : List RVal) (n : Nat)
    (hbuf : s.channels.lookup name = some (zerosLike s.t))
    (hn : s.t.length = n) (hw : w.length = n)
    (hcb : cb s.t = w.map (fun x => [x]))
    (ha : a.length = 10) :
    s.addElement name cb [a] =
      .ok (⟨s.t, updateChan name
            (bcast2 RVal.add (zerosLike s.t) (bcast2 RVal.mul [a] (cb s.t)))
            s.channels⟩,
           overlapAny (zerosLike s.t) (bcast2 RVal.mul [a] (cb s.t))) ∧
    Mat.Rect (bcast2 RVal.add (zerosLike s.t) (bcast2 RVal.mul [a] (cb s.t))) n 10 ∧
    ∀ i < n, ∀ k < 10,
      ((bcast2 RVal.add (zerosLike s.t) (bcast2 RVal.mul [a] (cb s.t))).getD i []).getD
          k .nan =
        RVal.mul (a.getD k .nan) (w.getD i .nan) := by
  have hunit : bcast2 RVal.mul [a] (cb s.t) =
      w.map (fun x => a.map (fun y => RVal.mul y x)) := by
    rw [hcb, bcast2_rowvec_colvec]
  have hurect : Mat.Rect (bcast2 RVal.mul [a] (cb s.t)) n 10 := by
    rw [hunit]
    constructor
    · simp [hw]
    · intro r hr
      simp only [List.mem_map] at hr
      obtain ⟨x, _, rfl⟩ := hr
      simp [ha]
  have hzrect : Mat.Rect (zerosLike s.t) n 1 := by
    have := zerosLike_rect s.t
    rw [hn] at this
    exact this
  have hcomp : bCompat 1 10 := Or.inr (Or.inl rfl)
  have hmax : bcMax 1 10 = 10 := bcMax_one_left 10
  refine ⟨?_, ?_, ?_⟩
  · unfold Sequence.addElement
    rw [hbuf]
  · have := bcast2_rect RVal.add _ _ n 1 10 hzrect hurect hcomp
    rw [hmax] at this
    exact this
  · intro i hi k hk
    have hstep := bcast2_getD RVal.add _ _ n 1 10 hzrect hurect hcomp i k hi
      (by rw [hmax]; exact hk) RVal.nan []
    rw [hstep]
    have hz : bEnt (zerosLike s.t) i k = RVal.val 0 := by
      rw [bEnt_rect _ n 1 hzrect i k hi, bIdx_one,
          zerosLike_getD s.t i (by omega)]
      rfl
    have hu2 : bEnt (bcast2 RVal.mul [a] (cb s.t)) i k =
        RVal.mul (a.getD k .nan) (w.getD i .nan) := by
      rw [bEnt_rect _ n 10 hurect i k hi, bIdx_eq_self hk, hunit]
      rw [getD_map _ w i [] RVal.nan (by omega)]
      rw [getD_map _ a k RVal.nan RVal.nan (by omega)]
    rw [hz, hu2, RVal.zero_add]

theorem C3_witness :
    (Sequence.init [(0 : ℚ), 1] ["PEG"]).addElement "PEG"
        (fun _ => [[RVal.val 3], [RVal.val 4]]) [List.replicate 10 (RVal.val 2)] =
      .ok (⟨[0, 1], [("PEG", [List.replicate 10 (RVal.val 6),
                              List.replicate 10 (RVal.val 8)])]⟩, false) := by
  have h := C3_amplitude_vector_broadcast (Sequence.init [(0 : ℚ), 1] ["PEG"])
      "PEG" (fun _ => [[RVal.val 3], [RVal.val 4]])
      (List.replicate 10 (RVal.val 2)) [RVal.val 3, RVal.val 4] 2
      (by decide) (by decide) (by decide) rfl (by decide)
  rw [h.1]
  norm_num [Sequence.init, overlapAny, bcast2, rowB, updateChan, zerosLike,
    RVal.add, RVal.mul, RVal.truthy, List.replicate]

section SwapLemmas

theorem bcMax_eq_one {p q : Nat} (h : bcMax p q = 1) : p = 1 ∧ q = 1 := by
  unfold bcMax at h
  split_ifs at h <;> omega

theorem bcMax_right_absorb {x y : Nat} (hc : bCompat x y) :
    x = 1 ∨ x = bcMax x y := by
  unfold bCompat at hc
  unfold bcMax
  split_ifs <;> omega

theorem bcMax_self_or_one {x y : Nat} (hc : bCompat x y) :
    bcMax x y = 1 ∨ bcMax x y = x ∨ bcMax x y = y := by
  unfold bCompat at hc
  unfold bcMax
  split_ifs <;> omega

theorem bcMax_assoc_swap (kc ka kb : Nat) (hca : bCompat kc ka)
    (hcb : bCompat kc kb) (hab : bCompat ka kb) :
    bCompat (bcMax kc ka) kb ∧ bCompat (bcMax kc kb) ka ∧
    bcMax (bcMax kc ka) kb = bcMax (bcMax kc kb) ka := by
  unfold bCompat bcMax at *
  split_ifs <;> omega

theorem chain_entry (buf u : Mat) (n kc ku K : Nat)
    (hb : buf.Rect n kc) (hu : u.Rect n ku) (hc : bCompat kc ku)
    (i k : Nat) (hi : i < n) (hk : k < K)
    (hK1 : bcMax kc ku = 1 ∨ bcMax kc ku = K) :
    bEnt (bcast2 RVal.add buf u) i k = RVal.add (bEnt buf i k) (bEnt u i k) := by
  have hrect : Mat.Rect (bcast2 RVal.add buf u) n (bcMax kc ku) :=
    bcast2_rect RVal.add buf u n kc ku hb hu hc
  rcases hK1 with h1 | hK
  · obtain ⟨hkc, hku⟩ := bcMax_eq_one h1
    rw [bEnt_rect _ n (bcMax kc ku) hrect i k hi, h1, bIdx_one]
    rw [bcast2_getD RVal.add buf u n kc ku hb hu hc i 0 hi (by omega) RVal.nan []]
    have eb : bEnt buf i 0 = bEnt buf i k := by
      rw [bEnt_rect buf n kc hb i 0 hi, bEnt_rect buf n kc hb i k hi,
          hkc, bIdx_one, bIdx_one]
    have eu : bEnt u i 0 = bEnt u i k := by
      rw [bEnt_rect u n ku hu i 0 hi, bEnt_rect u n ku hu i k hi,
          hku, bIdx_one, bIdx_one]
    rw [eb, eu]
  · rw [bEnt_rect _ n (bcMax kc ku) hrect i k hi, hK, bIdx_eq_self hk]
    exact bcast2_getD RVal.add buf u n kc ku hb hu hc i k hi (by omega) RVal.nan []

theorem bcast2_add_swap (buf uA uB : Mat) (n kc ka kb : Nat)
    (hb : buf.Rect n kc) (hA : uA.Rect n ka) (hB : uB.Rect n kb)
    (hca : bCompat kc ka) (hcb : bCompat kc kb) (hab : bCompat ka kb) :
    bcast2 RVal.add (bcast2 RVal.add buf uA) uB =
      bcast2 RVal.add (bcast2 RVal.add buf uB) uA := by
  obtain ⟨hcomp1, hcomp2, hKeq⟩ := bcMax_assoc_swap kc ka kb hca hcb hab
  have hXA : Mat.Rect (bcast2 RVal.add buf uA) n (bcMax kc ka) :=
    bcast2_rect RVal.add buf uA n kc ka hb hA hca
  have hXB : Mat.Rect (bcast2 RVal.add buf uB) n (bcMax kc kb) :=
    bcast2_rect RVal.add buf uB n kc kb hb hB hcb
  have hL : Mat.Rect (bcast2 RVal.add (bcast2 RVal.add buf uA) uB) n
      (bcMax (bcMax kc ka) kb) :=
    bcast2_rect RVal.add _ uB n (bcMax kc ka) kb hXA hB hcomp1
  have hR0 : Mat.Rect (bcast2 RVal.add (bcast2 RVal.add buf uB) uA) n
      (bcMax (bcMax kc kb) ka) :=
    bcast2_rect RVal.add _ uA n (bcMax kc kb) ka hXB hA hcomp2
  have hR : Mat.Rect (bcast2 RVal.add (bcast2 RVal.add buf uB) uA) n
      (bcMax (bcMax kc ka) kb) := by rw [hKeq]; exact hR0
  apply mat_ext _ _ n (bcMax (bcMax kc ka) kb) hL hR
  intro i hi j hj
  rw [bcast2_getD RVal.add _ uB n (bcMax kc ka) kb hXA hB hcomp1 i j hi hj RVal.nan []]
  rw [bcast2_getD RVal.add _ uA n (bcMax kc kb) ka hXB hA hcomp2 i j hi
    (by omega) RVal.nan []]
  have hK1A : bcMax kc ka = 1 ∨ bcMax kc ka = bcMax (bcMax kc ka) kb :=
    bcMax_right_absorb hcomp1
  have hK1B : bcMax kc kb = 1 ∨ bcMax kc kb = bcMax (bcMax kc ka) kb := by
    rcases bcMax_right_absorb hcomp2 with h | h
    · exact Or.inl h
    · right; rw [hKeq]; exact h
  rw [chain_entry buf uA n kc ka (bcMax (bcMax kc ka) kb) hb hA hca i j hi hj hK1A]
  rw [chain_entry buf uB n kc kb (bcMax (bcMax kc ka) kb) hb hB hcb i j hi hj hK1B]
  exact RVal.add_right_swap _ _ _

theorem updateChan_twice (name : String) (m1 m2 : Mat) (ch : List (String × Mat)) :
    updateChan name m2 (updateChan name m1 ch) = updateChan name m2 ch := by
  induction ch with
  | nil => rfl
  | cons p rest ih =>
      rw [updateChan]
      by_cases hp : p.1 = name
      · rw [if_pos hp, updateChan, if_pos hp, updateChan, if_pos hp, ih]
      · rw [if_neg hp, updateChan, if_neg hp, updateChan, if_neg hp, ih]

theorem addElemState_eq (s : Sequence) (name : String) (cb : List ℚ → Mat)
    (ampl : Mat) (buf : Mat) (hbuf : s.channels.lookup name = some buf) :
    s.addElemState name cb ampl =
      ⟨s.t, updateChan name
        (bcast2 RVal.add buf (bcast2 RVal.mul ampl (cb s.t))) s.channels⟩ := by
  unfold Sequence.addElemState Sequence.addElement
  rw [hbuf]

theorem bEnt_zerosLike (t : List ℚ) (i k : Nat) (hi : i < t.length) :
    bEnt (zerosLike t) i k = RVal.val 0 := by
  have hl : (zerosLike t).length = t.length := by simp [zerosLike]
  rw [bEnt, hl, bIdx_eq_self hi, zerosLike_getD t i hi]
  rfl

end SwapLemmas

/-- C4 (confirmed): for every channel and every two elements A and B: when the
supports of A and B do not overlap in time, accumulating A then B yields the
same store as B then A; and the buffer resulting from accumulating A then B
equals, at every position where at least one operand is non-absent, the
channel's prior content plus the ordinary elementwise sum of the two scaled
waveforms — overlapping contributions sum their amplitudes. -/
theorem C4_accumulation_order_and_sum (s : Sequence) (name : String)
    (cbA cbB : List ℚ → Mat) (amplA amplB : Mat) (buf : Mat) (n kc ka kb : Nat)
    (hbuf : s.channels.lookup name = some buf)
    (hb : buf.Rect n kc)
    (hA : Mat.Rect (bcast2 RVal.mul amplA (cbA s.t)) n ka)
    (hB : Mat.Rect (bcast2 RVal.mul amplB (cbB s.t)) n kb)
    (hca : bCompat kc ka) (hcb : bCompat kc kb) (hab : bCompat ka kb) :
    ((∀ i < n,
        (∀ k < ka,
          ((bcast2 RVal.mul amplA (cbA s.t)).getD i []).getD k .nan =
            RVal.val 0) ∨
        (∀ k < kb,
          ((bcast2 RVal.mul amplB (cbB s.t)).getD i []).getD k .nan =
            RVal.val 0)) →
      (s.addElemState name cbA amplA).addElemState name cbB amplB =
        (s.addElemState name cbB amplB).addElemState name cbA amplA) ∧
    (∀ i < n, ∀ k < bcMax (bcMax kc ka) kb,
      (bEnt (bcast2 RVal.mul amplA (cbA s.t)) i k ≠ RVal.nan ∨
       bEnt (bcast2 RVal.mul amplB (cbB s.t)) i k ≠ RVal.nan) →
      ∀ M, ((s.addElemState name cbA amplA).addElemState name cbB
          amplB).channels.lookup name = some M →
        (M.getD i []).getD k .nan =
          RVal.add (bEnt buf i k)
            (RVal.add (bEnt (bcast2 RVal.mul amplA (cbA s.t)) i k)
                      (bEnt (bcast2 RVal.mul amplB (cbB s.t)) i k))) := by
  have hs1A := addElemState_eq s name cbA amplA buf hbuf
  have hs1B := addElemState_eq s name cbB amplB buf hbuf
  have hlk1A : (Sequence.mk s.t (updateChan name
      (bcast2 RVal.add buf (bcast2 RVal.mul amplA (cbA s.t)))
      s.channels)).channels.lookup name =
      some (bcast2 RVal.add buf (bcast2 RVal.mul amplA (cbA s.t))) :=
    lookup_updateChan_self name _ s.channels (by rw [hbuf]; rfl)
  have hlk1B : (Sequence.mk s.t (updateChan name
      (bcast2 RVal.add buf (bcast2 RVal.mul amplB (cbB s.t)))
      s.channels)).channels.lookup name =
      some (bcast2 RVal.add buf (bcast2 RVal.mul amplB (cbB s.t))) :=
    lookup_updateChan_self name _ s.channels (by rw [hbuf]; rfl)
  have hs2AB : (s.addElemState name cbA amplA).addElemState name cbB amplB =
      ⟨s.t, updateChan name
        (bcast2 RVal.add
          (bcast2 RVal.add buf (bcast2 RVal.mul amplA (cbA s.t)))
          (bcast2 RVal.mul amplB (cbB s.t)))
        (updateChan name
          (bcast2 RVal.add buf (bcast2 RVal.mul amplA (cbA s.t)))
          s.channels)⟩ := by
    rw [hs1A]
    exact addElemState_eq _ name cbB amplB _ hlk1A
  have hs2BA : (s.addElemState name cbB amplB).addElemState name cbA amplA =
      ⟨s.t, updateChan name
        (bcast2 RVal.add
          (bcast2 RVal.add buf (bcast2 RVal.mul amplB (cbB s.t)))
          (bcast2 RVal.mul amplA (cbA s.t)))
        (updateChan name
          (bcast2 RVal.add buf (bcast2 RVal.mul amplB (cbB s.t)))
          s.channels)⟩ := by
    rw [hs1B]
    exact addElemState_eq _ name cbA amplA _ hlk1B
  constructor
  · intro _
    rw [hs2AB, hs2BA, updateChan_twice, updateChan_twice,
        bcast2_add_swap buf _ _ n kc ka kb hb hA hB hca hcb hab]
  · intro i hi k hk _ M hM
    rw [hs2AB, updateChan_twice] at hM
    have hlk2 : (updateChan name
        (bcast2 RVal.add
          (bcast2 RVal.add buf (bcast2 RVal.mul amplA (cbA s.t)))
          (bcast2 RVal.mul amplB (cbB s.t))) s.channels).lookup name =
        some (bcast2 RVal.add
          (bcast2 RVal.add buf (bcast2 RVal.mul amplA (cbA s.t)))
          (bcast2 RVal.mul amplB (cbB s.t))) :=
      lookup_updateChan_self name _ s.channels (by rw [hbuf]; rfl)
    rw [hlk2] at hM
    obtain rfl : M = _ := (Option.some.injEq _ _).mp hM.symm
    have hXA : Mat.Rect (bcast2 RVal.add buf (bcast2 RVal.mul amplA (cbA s.t)))
        n (bcMax kc ka) := bcast2_rect RVal.add _ _ n kc ka hb hA hca
    have hcomp1 : bCompat (bcMax kc ka) kb :=
      (bcMax_assoc_swap kc ka kb hca hcb hab).1
    rw [bcast2_getD RVal.add _ _ n (bcMax kc ka) kb hXA hB hcomp1 i k hi hk
      RVal.nan []]
    have hK1A : bcMax kc ka = 1 ∨ bcMax kc ka = bcMax (bcMax kc ka) kb :=
      bcMax_right_absorb hcomp1
    rw [chain_entry buf _ n kc ka (bcMax (bcMax kc ka) kb) hb hA hca i k hi hk
      hK1A]
    rw [RVal.add_assoc]

theorem C4_witness :
    (((Sequence.init [(0 : ℚ), 1] ["FEG"]).addElemState "FEG"
        (fun _ => [[RVal.val 1], [RVal.val 0]]) [[RVal.val 1]]).addElemState "FEG"
        (fun _ => [[RVal.val 0], [RVal.val 2]]) [[RVal.val 1]] =
      ((Sequence.init [(0 : ℚ), 1] ["FEG"]).addElemState "FEG"
        (fun _ => [[RVal.val 0], [RVal.val 2]]) [[RVal.val 1]]).addElemState "FEG"
        (fun _ => [[RVal.val 1], [RVal.val 0]]) [[RVal.val 1]]) ∧
    (([[RVal.val 9]] : Mat).getD 0 []).getD 0 RVal.nan =
      RVal.add (bEnt [[RVal.val 2]] 0 0)
        (RVal.add
          (bEnt (bcast2 RVal.mul [[RVal.val 1]]
            ((fun ts : List ℚ => ts.map (fun _ => [RVal.val 3]))
              (Sequence.mk [0] [("A", [[RVal.val 2]])]).t)) 0 0)
          (bEnt (bcast2 RVal.mul [[RVal.val 1]]
            ((fun ts : List ℚ => ts.map (fun _ => [RVal.val 4]))
              (Sequence.mk [0] [("A", [[RVal.val 2]])]).t)) 0 0)) := by
  constructor
  · refine (C4_accumulation_order_and_sum (Sequence.init [(0 : ℚ), 1] ["FEG"])
        "FEG" (fun _ => [[RVal.val 1], [RVal.val 0]])
        (fun _ => [[RVal.val 0], [RVal.val 2]])
        [[RVal.val 1]] [[RVal.val 1]] (zerosLike [(0 : ℚ), 1]) 2 1 1 1
        (by decide) (by decide) (by decide) (by decide)
        (Or.inl rfl) (Or.inl rfl) (Or.inl rfl)).1 ?_
    intro i hi
    interval_cases i
    · right
      intro k hk
      interval_cases k
      norm_num [bcast2, rowB, RVal.mul]
    · left
      intro k hk
      interval_cases k
      norm_num [bcast2, rowB, RVal.mul]
  · refine (C4_accumulation_order_and_sum
        (Sequence.mk [0] [("A", [[RVal.val 2]])]) "A"
        (fun ts : List ℚ => ts.map (fun _ => [RVal.val 3]))
        (fun ts : List ℚ => ts.map (fun _ => [RVal.val 4]))
        [[RVal.val 1]] [[RVal.val 1]] [[RVal.val 2]] 1 1 1 1
        (by decide) (by decide) (by decide) (by decide)
        (Or.inl rfl) (Or.inl rfl) (Or.inl rfl)).2 0 (by omega) 0 (by decide)
        (Or.inl (by
          norm_num [bEnt, bcast2, rowB, bIdx, RVal.mul]
          decide))
        [[RVal.val 9]] ?_
    norm_num [Sequence.addElemState, Sequence.addElement, overlapAny, bcast2,
      rowB, updateChan, RVal.add, RVal.mul, RVal.truthy, List.lookup]

section AxisLemmas

theorem foldl_max_le_self (l : List Mat) (a : Nat) :
    a ≤ l.foldl (fun acc m => max acc ((m.headD []).length)) a := by
  induction l generalizing a with
  | nil => exact Nat.le_refl a
  | cons c rest ih =>
      exact Nat.le_trans (Nat.le_max_left a ((c.headD []).length)) (ih _)

theorem bcastK_ge (chs : List Mat) (m : Mat) (hm : m ∈ chs) :
    (m.headD []).length ≤ bcastK chs := by
  unfold bcastK
  generalize 0 = a
  induction chs generalizing a with
  | nil => simp at hm
  | cons c rest ih =>
      rcases List.mem_cons.mp hm with rfl | hmem
      · exact Nat.le_trans (Nat.le_max_right a ((m.headD []).length))
          (foldl_max_le_self rest _)
      · exact ih hmem _

theorem bRowTo_all_nan (K : Nat) (r : List RVal) (hK : 0 < K) :
    ((bRowTo K r).all RVal.isNan = true) ↔ (r.all RVal.isNan = true) := by
  unfold bRowTo
  split_ifs with h
  · obtain ⟨x, rfl⟩ : ∃ x, r = [x] := by
      cases r with
      | nil => simp at h
      | cons a l =>
          cases l with
          | nil => exact ⟨a, rfl⟩
          | cons b l2 => simp at h
    constructor
    · intro h2
      have hx : RVal.isNan x = true := by
        have hmem : x ∈ List.replicate K ([x].headD RVal.nan) := by
          rw [List.headD_cons]
          exact List.mem_replicate.mpr ⟨by omega, rfl⟩
        exact List.all_eq_true.mp h2 x hmem
      simpa using hx
    · intro h2
      have hx : RVal.isNan x = true := by simpa using h2
      refine List.all_eq_true.mpr ?_
      intro v hv
      rw [List.headD_cons] at hv
      obtain ⟨-, rfl⟩ := List.mem_replicate.mp hv
      exact hx
  · exact Iff.rfl

theorem stackRow_all_iff (chs : List Mat) (i : Nat) (hK : 0 < bcastK chs) :
    ((stackRow chs i).all RVal.isNan = true) ↔
      ∀ m ∈ chs, ∀ v ∈ m.getD i [], v.isNan = true := by
  unfold stackRow
  rw [List.all_eq_true]
  constructor
  · intro h m hm v hv
    have hrow : bRowTo (bcastK chs) (m.getD i []) ∈
        chs.map (fun m => bRowTo (bcastK chs) (m.getD i [])) :=
      List.mem_map_of_mem _ hm
    have hall : ∀ u ∈ bRowTo (bcastK chs) (m.getD i []), u.isNan = true := by
      intro u hu
      exact h u (List.mem_flatten.mpr ⟨_, hrow, hu⟩)
    have := (bRowTo_all_nan (bcastK chs) (m.getD i []) hK).mp
      (List.all_eq_true.mpr hall)
    exact List.all_eq_true.mp this v hv
  · intro h v hv
    obtain ⟨l, hl, hvl⟩ := List.mem_flatten.mp hv
    obtain ⟨m, hm, rfl⟩ := List.mem_map.mp hl
    have hall : (m.getD i []).all RVal.isNan = true :=
      List.all_eq_true.mpr (h m hm)
    have := (bRowTo_all_nan (bcastK chs) (m.getD i []) hK).mpr hall
    exact List.all_eq_true.mp this v hvl

theorem allNanMask_getD (chs : List Mat) (i : Nat)
    (hi : i < (chs.headD []).length) :
    (allNanMask chs).getD i false = (stackRow chs i).all RVal.isNan := by
  unfold allNanMask
  rw [getD_map _ _ _ _ 0 (by simpa using hi)]
  congr 1
  rw [getD_eq_getElem _ _ _ (by simpa using hi), List.getElem_range]

end AxisLemmas

/-- C5 (confirmed): the baseline path built by
`_time_axis_as_disconected_path` is visible (a `LINETO` code, with all
vertices pinned to y = 0) at grid position `i` exactly when every contributing
channel is NaN ("absent") at `i` across all of its overlay variants; in
particular a single entirely-absent channel makes the baseline visible at
every position. -/
theorem C5_baseline_visible_iff (chs : List Mat) (n : Nat)
    (hne : chs ≠ [])
    (hn : ∀ m ∈ chs, m.length = n)
    (hrow : ∀ m ∈ chs, ∀ r ∈ m,
      0 < r.length ∧ (r.length = 1 ∨ r.length = bcastK chs))
    (i : Nat) (hi : i < n) :
    ((timeAxisCodes chs).getD (i + 1) false = true ↔
      ∀ m ∈ chs, ∀ v ∈ m.getD i [], v.isNan = true) ∧
    ((∀ m ∈ chs, ∀ r ∈ m, ∀ v ∈ r, v.isNan = true) →
      (timeAxisCodes chs).getD (i + 1) false = true) ∧
    (∀ pt ∈ timeAxisVerts chs, pt.2 = 0) := by
  obtain ⟨m0, rest, rfl⟩ : ∃ m0 rest, chs = m0 :: rest := by
    cases chs with
    | nil => exact absurd rfl hne
    | cons a b => exact ⟨a, b, rfl⟩
  have hm0len : m0.length = n := hn m0 (List.mem_cons_self _ _)
  have hheadlen : ((m0 :: rest).headD []).length = n := by
    simpa using hm0len
  have hK : 0 < bcastK (m0 :: rest) := by
    have hr0 : m0.headD [] ∈ m0 := by
      cases m0 with
      | nil => simp at hm0len; omega
      | cons r rs => simp
    have := (hrow m0 (List.mem_cons_self _ _) _ hr0).1
    have hle := bcastK_ge (m0 :: rest) m0 (List.mem_cons_self _ _)
    omega
  have hcode : (timeAxisCodes (m0 :: rest)).getD (i + 1) false =
      (allNanMask (m0 :: rest)).getD i false := rfl
  have hmain : ((timeAxisCodes (m0 :: rest)).getD (i + 1) false = true ↔
      ∀ m ∈ m0 :: rest, ∀ v ∈ m.getD i [], v.isNan = true) := by
    rw [hcode, allNanMask_getD _ _ (by omega), stackRow_all_iff _ _ hK]
  refine ⟨hmain, ?_, ?_⟩
  · intro hall
    rw [hmain]
    intro m hm v hv
    have hrowlen : i < m.length := by rw [hn m hm]; omega
    exact hall m hm _ (getD_mem _ _ _ hrowlen) v hv
  · intro pt hpt
    unfold timeAxisVerts at hpt
    rcases List.mem_cons.mp hpt with rfl | hpt2
    · rfl
    · obtain ⟨j, -, rfl⟩ := List.mem_map.mp hpt2
      rfl

theorem C5_witness : (timeAxisCodes [[[RVal.nan]]]).getD 1 false = true :=
  (C5_baseline_visible_iff [[[RVal.nan]]] 1 (by decide) (by decide) (by decide)
    0 (by decide)).2.1 (by decide)

/-- C6 counterexample: for the single channel `[NaN, 1, NaN]` the raw
all-absent mask is `[true, false, true]`; the dilation the claim prescribes
(`specDilate`) would make grid position 1 — adjacent to an all-absent run on
each side — visible, but `_time_axis_as_disconected_path` emits `MOVETO`
(invisible) there: the mask is thresholded with no dilation. -/
theorem C6_counterexample :
    allNanMask [[[RVal.nan], [RVal.val 1], [RVal.nan]]] = [true, false, true] ∧
    specDilate [true, false, true] = [true, true, true] ∧
    (timeAxisCodes [[[RVal.nan], [RVal.val 1], [RVal.nan]]]).getD 2 false =
      false := by
  refine ⟨by decide, by decide, by decide⟩

/-- C6 (amended): the Axis Projector applies no dilation to the "all absent"
mask: at every grid position where the raw mask is false but the one-sample
dilated mask (`specDilate`) is true — i.e. a sample that only adjacency to an
all-absent run would make visible — the emitted path code is `MOVETO`
(invisible). -/
theorem C6_no_dilation (chs : List Mat) (n : Nat)
    (hne : chs ≠ []) (hn : ∀ m ∈ chs, m.length = n) (i : Nat) (hi : i < n)
    (hmask : (allNanMask chs).getD i false = false)
    (hadj : (specDilate (allNanMask chs)).getD i false = true) :
    (timeAxisCodes chs).getD (i + 1) false = false := by
  have hcode : (timeAxisCodes chs).getD (i + 1) false =
      (allNanMask chs).getD i false := rfl
  rw [hcode, hmask]

theorem C6_witness :
    (timeAxisCodes [[[RVal.nan], [RVal.val 1], [RVal.nan]]]).getD 2 false =
      false :=
  C6_no_dilation [[[RVal.nan], [RVal.val 1], [RVal.nan]]] 3 (by decide)
    (by decide) 1 (by decide) (by decide) (by decide)

section YlimLemmas

theorem foldl_pair {α : Type} (f g : ℚ → α → ℚ) (l : List α) (a b : ℚ) :
    l.foldl (fun y x => (f y.1 x, g y.2 x)) (a, b) = (l.foldl f a, l.foldl g b) := by
  induction l generalizing a b with
  | nil => rfl
  | cons c rest ih => exact ih (f a c) (g b c)

theorem computeYlim_eq (signals : List (List (List ℚ))) (annos : List (List ℚ))
    (pf : ℚ) :
    computeYlim signals annos pf =
      ((signals.map (fun sig => pf * matMin sig) ++ annos.map listMin).foldl min 0,
       (signals.map (fun sig => pf * matMax sig) ++ annos.map listMax).foldl max 0) := by
  unfold computeYlim
  rw [foldl_pair (fun y sig => min y (pf * matMin sig))
      (fun y sig => max y (pf * matMax sig)) signals 0 0]
  rw [foldl_pair (fun y a => min y (listMin a)) (fun y a => max y (listMax a))]
  rw [List.foldl_append, List.foldl_append, List.foldl_map, List.foldl_map,
      List.foldl_map, List.foldl_map]

theorem foldl_min_shift (l : List ℚ) (a b : ℚ) :
    l.foldl min (min a b) = min a (l.foldl min b) := by
  induction l generalizing b with
  | nil => rfl
  | cons c rest ih =>
      show List.foldl min (min (min a b) c) rest = _
      rw [min_assoc, ih (min b c)]
      rfl

theorem foldl_max_shift (l : List ℚ) (a b : ℚ) :
    l.foldl max (max a b) = max a (l.foldl max b) := by
  induction l generalizing b with
  | nil => rfl
  | cons c rest ih =>
      show List.foldl max (max (max a b) c) rest = _
      rw [max_assoc, ih (max b c)]
      rfl

theorem foldl_min_map_mul (c : ℚ) (hc : 0 ≤ c) (a x : ℚ) (r : List ℚ) :
    ((x :: r).map (fun z => c * z)).foldl min a = min a (c * r.foldl min x) := by
  induction r generalizing x a with
  | nil => rfl
  | cons y r2 ih =>
      show ((y :: r2).map (fun z => c * z)).foldl min (min a (c * x)) = _
      rw [ih (min a (c * x)) y, min_assoc]
      congr 1
      rw [← mul_min_of_nonneg _ _ hc, ← foldl_min_shift r2 x y]
      rfl

theorem foldl_max_map_mul (c : ℚ) (hc : 0 ≤ c) (a x : ℚ) (r : List ℚ) :
    ((x :: r).map (fun z => c * z)).foldl max a = max a (c * r.foldl max x) := by
  induction r generalizing x a with
  | nil => rfl
  | cons y r2 ih =>
      show ((y :: r2).map (fun z => c * z)).foldl max (max a (c * x)) = _
      rw [ih (max a (c * x)) y, max_assoc]
      congr 1
      rw [← mul_max_of_nonneg _ _ hc, ← foldl_max_shift r2 x y]
      rfl

theorem listMin_cons (x : ℚ) (r : List ℚ) : listMin (x :: r) = r.foldl min x := by
  show List.foldl min (min x x) r = List.foldl min x r
  rw [min_self]

theorem listMax_cons (x : ℚ) (r : List ℚ) : listMax (x :: r) = r.foldl max x := by
  show List.foldl max (max x x) r = List.foldl max x r
  rw [max_self]

end YlimLemmas

/-- C7 counterexample: with one channel whose only sample is 4 and padding
factor 1.1, `_format_axes_data` produces `ylim = (0, 4.4)` — the fold starts
from `[0.0, 0.0]`, so the lower limit is clamped to 0 — whereas the claim's
`padding_factor * (min, max)` over the union of samples would be
`(4.4, 4.4)`. -/
theorem C7_counterexample :
    computeYlim [[[(4 : ℚ)]]] [] (11 / 10) = (0, 22 / 5) ∧
    ((0 : ℚ), (22 : ℚ) / 5) ≠ ((11 / 10) * 4, (11 / 10) * 4) := by
  constructor
  · norm_num [computeYlim, matMin, matMax, listMin, listMax]
  · intro h
    have := congrArg Prod.fst h
    norm_num at this

/-- C7 (amended): `_format_axes_data` computes one global y-limit — the
(min, max) over `{0}`, the padded per-channel extrema
`padding_factor * min/max(signal)`, and the annotation amplitudes — i.e.
`padding_factor * (min, max)` over the union of all channel samples, clamped
to include 0 and widened by annotation amplitudes; the identical pair is set
on every row. -/
theorem C7_global_ylim (signals : List (List (List ℚ))) (annos : List (List ℚ))
    (pf : ℚ) (nRows : Nat) (hpf : 0 ≤ pf) (hs : signals ≠ []) :
    (∀ i < nRows, (formatAxesYlims nRows signals annos pf).getD i (0, 0) =
      computeYlim signals annos pf) ∧
    computeYlim signals annos pf =
      ((annos.map listMin).foldl min (min 0 (pf * listMin (signals.map matMin))),
       (annos.map listMax).foldl max (max 0 (pf * listMax (signals.map matMax)))) := by
  constructor
  · intro i hi
    unfold formatAxesYlims
    rw [getD_eq_getElem _ _ _ (by simpa using hi)]
    exact List.getElem_replicate ..
  · rw [computeYlim_eq]
    obtain ⟨s0, rest, rfl⟩ : ∃ s0 rest, signals = s0 :: rest := by
      cases signals with
      | nil => exact absurd rfl hs
      | cons a b => exact ⟨a, b, rfl⟩
    rw [Prod.mk.injEq]
    constructor <;> rw [List.foldl_append]
    · congr 1
      have hmap : (s0 :: rest).map (fun sig => pf * matMin sig) =
          (matMin s0 :: rest.map matMin).map (fun z => pf * z) := by
        simp [List.map_map]
      rw [hmap, foldl_min_map_mul pf hpf 0 (matMin s0) (rest.map matMin)]
      rw [show (s0 :: rest).map matMin = matMin s0 :: rest.map matMin from rfl,
          listMin_cons]
    · congr 1
      have hmap : (s0 :: rest).map (fun sig => pf * matMax sig) =
          (matMax s0 :: rest.map matMax).map (fun z => pf * z) := by
        simp [List.map_map]
      rw [hmap, foldl_max_map_mul pf hpf 0 (matMax s0) (rest.map matMax)]
      rw [show (s0 :: rest).map matMax = matMax s0 :: rest.map matMax from rfl,
          listMax_cons]

theorem C7_witness :
    (formatAxesYlims 3 [[[(-2 : ℚ)], [3]]] [] (11 / 10)).getD 2 (0, 0) =
      computeYlim [[[(-2 : ℚ)], [3]]] [] (11 / 10) :=
  (C7_global_ylim [[[(-2 : ℚ)], [3]]] [] (11 / 10) 3 (by norm_num)
    (by decide)).1 2 (by omega)

/-- C8 (confirmed): for `t_start = s < t_flat_out = f < t_ramp_down = d`, the
`trapezoid` generator is exactly 0 at `t = s`, ramps linearly with value
`(t-s)/(f-s)` on `(s, f]` reaching 1 at `t = f`, equals 1 on `(f, d]`, ramps
linearly back down on `(d, d+(f-s)]` reaching 0 at `t = d+(f-s)`, and is 0 at
every sample outside `[s, d+(f-s)]`; `trapezoidArr` applies it samplewise to
the grid. -/
theorem C8_trapezoid_spec (s f d t : ℚ) (ts : List ℚ) (i : Nat)
    (hsf : s < f) (hfd : f < d) :
    (trapezoid s s f d = 0) ∧
    (s < t → t ≤ f → trapezoid t s f d = (t - s) / (f - s)) ∧
    (trapezoid f s f d = 1) ∧
    (f < t → t ≤ d → trapezoid t s f d = 1) ∧
    (d < t → t ≤ d + (f - s) → trapezoid t s f d = (d - t) / (f - s) + 1) ∧
    (trapezoid (d + (f - s)) s f d = 0) ∧
    ((t < s ∨ d + (f - s) < t) → trapezoid t s f d = 0) ∧
    (i < ts.length → (trapezoidArr ts s f d).getD i 0 =
      trapezoid (ts.getD i 0) s f d) := by
  have hfs : f - s ≠ 0 := sub_ne_zero.mpr (ne_of_gt hsf)
  refine ⟨?_, ?_, ?_, ?_, ?_, ?_, ?_, ?_⟩
  · rw [trapezoid, if_neg (by rintro ⟨h1, -⟩; linarith),
        if_neg (by rintro ⟨h1, -⟩; linarith),
        if_neg (by rintro ⟨h1, -⟩; exact absurd h1 (lt_irrefl s))]
  · intro h1 h2
    rw [trapezoid, if_neg (by rintro ⟨h3, -⟩; linarith),
        if_neg (by rintro ⟨h3, -⟩; linarith), if_pos ⟨h1, h2⟩]
  · rw [trapezoid, if_neg (by rintro ⟨h3, -⟩; linarith),
        if_neg (by rintro ⟨h3, -⟩; linarith), if_pos ⟨hsf, le_refl f⟩,
        div_self hfs]
  · intro h1 h2
    rw [trapezoid, if_neg (by rintro ⟨h3, -⟩; linarith), if_pos ⟨h1, h2⟩]
  · intro h1 h2
    rw [trapezoid, if_pos ⟨h1, h2⟩]
  · rw [trapezoid, if_pos ⟨by linarith, le_refl _⟩]
    have he : d - (d + (f - s)) = -(f - s) := by ring
    rw [he, neg_div, div_self hfs]
    ring
  · rintro (h1 | h1)
    · rw [trapezoid, if_neg (by rintro ⟨h3, -⟩; linarith),
          if_neg (by rintro ⟨h3, -⟩; linarith),
          if_neg (by rintro ⟨h3, -⟩; linarith)]
    · rw [trapezoid, if_neg (by rintro ⟨-, h3⟩; linarith),
          if_neg (by rintro ⟨-, h3⟩; linarith),
          if_neg (by rintro ⟨-, h3⟩; linarith)]
  · intro hits
    exact getD_map _ ts i 0 0 hits

theorem C8_witness :
    trapezoid 0 0 1 2 = 0 ∧
    trapezoid (1 / 2) 0 1 2 = (1 / 2 - 0) / (1 - 0) ∧
    trapezoid 1 0 1 2 = 1 ∧
    trapezoid (2 + (1 - 0)) 0 1 2 = 0 ∧
    (trapezoidArr [(1 / 2 : ℚ)] 0 1 2).getD 0 0 =
      trapezoid (([(1 / 2 : ℚ)]).getD 0 0) 0 1 2 := by
  have h := C8_trapezoid_spec 0 1 2 (1 / 2) [(1 / 2 : ℚ)] 0 (by norm_num)
    (by norm_num)
  exact ⟨h.1, h.2.1 (by norm_num) (by norm_num), h.2.2.1, h.2.2.2.2.2.1,
    h.2.2.2.2.2.2.2 (by norm_num)⟩
